import Mathlib

set_option linter.unusedSectionVars false
set_option synthInstance.maxSize 8192

/-!
Verification development for a tabular Double Q-Learning implementation
(`Algorithms/double_q_learning.py`).

The embedding is a direct transcription of the Python source:

* value tables (`dict` mapping a state to a numpy vector of action values)
  become insertion-ordered association lists `Table S := List (S × Vec)`
  with `Vec := List ℚ`; dict assignment is `setKey` (overwrite in place,
  append at the end when the key is new), `dict.setdefault` is `setdefault`;
* `np.argmax` is `argmaxIdx`, the first index attaining the maximum value;
* erroring operations (indexing a missing dict key, indexing a vector out of
  range, unpacking `zip(*[])`) return `none`;
* every random draw of a loop iteration (`np.random.uniform(0, 1)`,
  `np.random.randint(0, num_actions)`, the coin `np.random.randint(0, 2)`)
  is an explicit `StepRand` record; a run consumes a list of such records,
  which doubles as fuel for the `while True` episode loop;
* the environment is a deterministic machine with observable state:
  `reset` gives the initial state and `step` maps (state, action) to
  (next_state, reward, done).
-/

namespace DoubleQ

/-- Vector of per-action values (a numpy array in the source). -/
abbrev Vec := List ℚ

/-- Value table: insertion-ordered association list, modelling a Python dict
from state to action-value vector. -/
abbrev Table (S : Type) := List (S × Vec)

variable {S : Type} [DecidableEq S]

/-- Key list of a table, in insertion order (Python `dict.keys()`). -/
def keys (t : Table S) : List S := t.map Prod.fst

/-- Dictionary lookup: value at the first occurrence of the key, `none` when
the key is absent (a Python `KeyError`). -/
def lookup : Table S → S → Option Vec
  | [], _ => none
  | (k', v) :: rest, k => if k = k' then some v else lookup rest k

/-- Dictionary assignment `t[k] = v`: overwrite in place when the key exists,
append at the end otherwise (Python dicts preserve insertion order). -/
def setKey : Table S → S → Vec → Table S
  | [], k, v => [(k, v)]
  | (k', v') :: rest, k, v =>
      if k = k' then (k', v) :: rest else (k', v') :: setKey rest k v

/-- Python `dict.setdefault(k, v)`: return the table (with `(k, v)` appended
when `k` was absent) together with the value now stored at `k`. -/
def setdefault (t : Table S) (k : S) (v : Vec) : Table S × Vec :=
  match lookup t k with
  | some w => (t, w)
  | none => (t ++ [(k, v)], v)

/-- `np.zeros(n)` as a rational vector. -/
def zeros (n : ℕ) : Vec := List.replicate n 0

/-- Element-wise sum of two action-value vectors (numpy `+`). -/
def addVec (v w : Vec) : Vec := List.zipWith (· + ·) v w

/-- Maximum value of a vector (0 for the empty vector, which the source
never queries on a success path). -/
def vecMax : Vec → ℚ
  | [] => 0
  | x :: xs => xs.foldl max x

/-- First index attaining the maximum value: the semantics of `np.argmax`,
whose left-to-right scan breaks ties towards the lowest index. -/
def argmaxIdx (v : Vec) : ℕ := v.indexOf (vecMax v)

/-- Random draws consumed by one iteration of the episode loop:
`u` is `np.random.uniform(0, 1)` (so `0 ≤ u < 1`), `explore` is the value of
`np.random.randint(0, num_actions)` (so in range when the vector is sized
`num_actions`), and `coin` is `np.random.randint(0, 2)` being nonzero. -/
structure StepRand where
  u : ℚ
  explore : ℕ
  coin : Bool
  deriving DecidableEq, Repr

/-- `EpsilonGreedyPolicy.sample_action`: combine both tables at `obs`
element-wise; with the uniform draw `u ≤ epsilon` return the random action,
otherwise return `np.argmax` of the combined vector. Indexing a state absent
from either dict raises, modelled by `none`. -/
def sample_action (Qa Qb : Table S) (epsilon : ℚ) (u : ℚ) (explore : ℕ)
    (obs : S) : Option ℕ :=
  match lookup Qa obs, lookup Qb obs with
  | some va, some vb =>
      let action_values := addVec va vb
      if u ≤ epsilon then some explore
      else some (argmaxIdx action_values)
  | _, _ => none

/-- One table update of the inner loop (source lines 94–101), in the source's
evaluation order. With `coin` (heads): `max_action = np.argmax` of
`Q_a.setdefault(next_state, zeros)`, read `Q_a[state][action]`, then
`Q_b.setdefault(next_state, zeros)[max_action]` supplies the bootstrap value
and `Q_a[state][action]` is overwritten with the TD target. Tails is the
symmetric update with the two tables swapped. -/
def stepUpdate (discount_factor alpha : ℚ) (num_actions : ℕ) (coin : Bool)
    (Qa Qb : Table S) (state : S) (action : ℕ) (next_state : S)
    (reward : ℚ) : Option (Table S × Table S) :=
  if coin then
    let p := setdefault Qa next_state (zeros num_actions)
    let max_action := argmaxIdx p.2
    match lookup p.1 state with
    | none => none
    | some qaSt =>
      match qaSt.get? action with
      | none => none
      | some old =>
        let q := setdefault Qb next_state (zeros num_actions)
        match q.2.get? max_action with
        | none => none
        | some boot =>
            some (setKey p.1 state
              (qaSt.set action (old + alpha * (reward + discount_factor * boot - old))),
              q.1)
  else
    let q := setdefault Qb next_state (zeros num_actions)
    let max_action := argmaxIdx q.2
    match lookup q.1 state with
    | none => none
    | some qbSt =>
      match qbSt.get? action with
      | none => none
      | some old =>
        let p := setdefault Qa next_state (zeros num_actions)
        match p.2.get? max_action with
        | none => none
        | some boot =>
            some (p.1, setKey q.1 state
              (qbSt.set action (old + alpha * (reward + discount_factor * boot - old))))

/-- Deterministic environment with observable state: `reset` yields the
initial state of every episode, `step` maps the current state and an action
to (next_state, reward, done), and `numActions` is `env.action_space.n`. -/
structure Env (S : Type) where
  reset : S
  step : S → ℕ → S × ℚ × Bool
  numActions : ℕ

/-- The `while True` episode loop (source lines 88–107): sample an action,
step the environment, apply the coin-selected table update, accumulate the
step count `i` and the return `R`, stop when `done`. The random-draw list is
the fuel; exhausting it (a non-terminating episode within the entropy
budget) gives `none`. -/
def runEpisode (env : Env S) (epsilon discount_factor alpha : ℚ) :
    List StepRand → S → Table S → Table S → ℕ → ℚ →
    Option (Table S × Table S × ℕ × ℚ × List StepRand)
  | [], _, _, _, _, _ => none
  | r :: rs, state, Qa, Qb, i, R =>
    match sample_action Qa Qb epsilon r.u r.explore state with
    | none => none
    | some action =>
      match env.step state action with
      | (next_state, reward, done) =>
        match stepUpdate discount_factor alpha env.numActions r.coin
            Qa Qb state action next_state reward with
        | none => none
        | some (Qa', Qb') =>
            if done then some (Qa', Qb', i + 1, R + reward, rs)
            else runEpisode env epsilon discount_factor alpha rs next_state
              Qa' Qb' (i + 1) (R + reward)

/-- Episode initialisation (source lines 84–86): `state = env.reset()`,
then `Q_a[state] = np.zeros(num_actions)` and
`Q_b[state] = np.zeros(num_actions)` — unconditional overwrites. -/
def episodeInit (Qa Qb : Table S) (state : S) (num_actions : ℕ) :
    Table S × Table S :=
  (setKey Qa state (zeros num_actions), setKey Qb state (zeros num_actions))

/-- The outer `for i_episode in range(num_episodes)` loop (source lines
80–110): initialise the episode, run it, append `(i, R)` to `stats`. -/
def runEpisodes (env : Env S) (epsilon discount_factor alpha : ℚ) :
    ℕ → List StepRand → Table S → Table S → List (ℕ × ℚ) →
    Option (Table S × Table S × List (ℕ × ℚ) × List StepRand)
  | 0, rs, Qa, Qb, stats => some (Qa, Qb, stats, rs)
  | n + 1, rs, Qa, Qb, stats =>
    match episodeInit Qa Qb env.reset env.numActions with
    | (Qa0, Qb0) =>
      match runEpisode env epsilon discount_factor alpha rs env.reset
          Qa0 Qb0 0 0 with
      | none => none
      | some (Qa', Qb', i, R, rs') =>
          runEpisodes env epsilon discount_factor alpha n rs' Qa' Qb'
            (stats ++ [(i, R)])

/-- The final merge (source lines 114–116): for every key of `Q_a`, in order,
`Q[key] = Q_a[key] + Q_b[key]`. Indexing `Q_b` at a key it lacks raises a
`KeyError`, modelled by `none`. -/
def mergeTables : Table S → Table S → Option (Table S)
  | [], _ => some []
  | (k, v) :: rest, Qb =>
    match lookup Qb k with
    | none => none
    | some w =>
      match mergeTables rest Qb with
      | none => none
      | some m => some ((k, addVec v w) :: m)

/-- `episode_lengths, episode_returns = zip(*stats)` (source line 112):
unpacking `zip(*[])` raises a ValueError, modelled by `none`; a nonempty
list of pairs unzips into the two component sequences. -/
def unzipStats : List (ℕ × ℚ) → Option (List ℕ × List ℚ)
  | [] => none
  | s :: rest => some (((s :: rest).map Prod.fst), ((s :: rest).map Prod.snd))

/-- `double_q_learning` (source lines 42–117): run all episodes, unzip the
statistics, merge the two tables, and return the merged table with the two
aligned statistics sequences. -/
def double_q_learning (env : Env S) (epsilon discount_factor alpha : ℚ)
    (num_episodes : ℕ) (rs : List StepRand) (Qa Qb : Table S) :
    Option (Table S × List ℕ × List ℚ) :=
  match runEpisodes env epsilon discount_factor alpha num_episodes rs Qa Qb [] with
  | none => none
  | some (Qa', Qb', stats, _) =>
    match unzipStats stats with
    | none => none
    | some (episode_lengths, episode_returns) =>
      match mergeTables Qa' Qb' with
      | none => none
      | some q => some (q, episode_lengths, episode_returns)

/-- Ghost record of one loop iteration: the sampled action, the observed
reward, and both tables as they stand after the update. Used to state what
"the actions taken" and "the rewards observed during the episode" mean. -/
abbrev StepLog (S : Type) := ℕ × ℚ × Table S × Table S

/-- Instrumented variant of `runEpisode` that additionally records a
`StepLog` for every iteration, in order. Its projection that drops the log
is proved equal to `runEpisode`. -/
def runEpisodeR (env : Env S) (epsilon discount_factor alpha : ℚ) :
    List StepRand → S → Table S → Table S → ℕ → ℚ →
    Option (Table S × Table S × ℕ × ℚ × List (StepLog S) × List StepRand)
  | [], _, _, _, _, _ => none
  | r :: rs, state, Qa, Qb, i, R =>
    match sample_action Qa Qb epsilon r.u r.explore state with
    | none => none
    | some action =>
      match env.step state action with
      | (next_state, reward, done) =>
        match stepUpdate discount_factor alpha env.numActions r.coin
            Qa Qb state action next_state reward with
        | none => none
        | some (Qa', Qb') =>
            if done then
              some (Qa', Qb', i + 1, R + reward, [(action, reward, Qa', Qb')], rs)
            else
              match runEpisodeR env epsilon discount_factor alpha rs next_state
                  Qa' Qb' (i + 1) (R + reward) with
              | none => none
              | some (Qa2, Qb2, i2, R2, log, rs2) =>
                  some (Qa2, Qb2, i2, R2, (action, reward, Qa', Qb') :: log, rs2)

/-- Instrumented variant of `runEpisodes` that carries, for every completed
episode, the pair `(i, R)` together with that episode's `StepLog` list. -/
def runEpisodesR (env : Env S) (epsilon discount_factor alpha : ℚ) :
    ℕ → List StepRand → Table S → Table S → List (ℕ × ℚ × List (StepLog S)) →
    Option (Table S × Table S × List (ℕ × ℚ × List (StepLog S)) × List StepRand)
  | 0, rs, Qa, Qb, statsR => some (Qa, Qb, statsR, rs)
  | n + 1, rs, Qa, Qb, statsR =>
    match episodeInit Qa Qb env.reset env.numActions with
    | (Qa0, Qb0) =>
      match runEpisodeR env epsilon discount_factor alpha rs env.reset
          Qa0 Qb0 0 0 with
      | none => none
      | some (Qa', Qb', i, R, log, rs') =>
          runEpisodesR env epsilon discount_factor alpha n rs' Qa' Qb'
            (statsR ++ [(i, R, log)])

/-- Modelled from the spec sentence of the claim that the `max_action` used
in the update always comes from the OTHER table: identical to `stepUpdate`
except that on heads `max_action` is `argmax` of `Q_b[next_state]` (and on
tails of `Q_a[next_state]`), the bootstrap value still being read from the
other table as the spec's update formula states. -/
def stepUpdateArgmaxOther (discount_factor alpha : ℚ) (num_actions : ℕ)
    (coin : Bool) (Qa Qb : Table S) (state : S) (action : ℕ) (next_state : S)
    (reward : ℚ) : Option (Table S × Table S) :=
  if coin then
    let p := setdefault Qa next_state (zeros num_actions)
    match lookup p.1 state with
    | none => none
    | some qaSt =>
      match qaSt.get? action with
      | none => none
      | some old =>
        let q := setdefault Qb next_state (zeros num_actions)
        let max_action := argmaxIdx q.2
        match q.2.get? max_action with
        | none => none
        | some boot =>
            some (setKey p.1 state
              (qaSt.set action (old + alpha * (reward + discount_factor * boot - old))),
              q.1)
  else
    let q := setdefault Qb next_state (zeros num_actions)
    match lookup q.1 state with
    | none => none
    | some qbSt =>
      match qbSt.get? action with
      | none => none
      | some old =>
        let p := setdefault Qa next_state (zeros num_actions)
        let max_action := argmaxIdx p.2
        match p.2.get? max_action with
        | none => none
        | some boot =>
            some (p.1, setKey q.1 state
              (qbSt.set action (old + alpha * (reward + discount_factor * boot - old))))

/-- Modelled from the spec's algorithm steps (c) and (d), amended wording:
first ensure `next_state` has a zero-vector default in BOTH tables, then
pick `max_action` from the next-state vector of the table being updated and
take the bootstrap value from the next-state vector of the other table. -/
def specStepCross (discount_factor alpha : ℚ) (num_actions : ℕ) (coin : Bool)
    (Qa Qb : Table S) (state : S) (action : ℕ) (next_state : S)
    (reward : ℚ) : Option (Table S × Table S) :=
  let Qa1 := (setdefault Qa next_state (zeros num_actions)).1
  let Qb1 := (setdefault Qb next_state (zeros num_actions)).1
  if coin then
    match lookup Qa1 next_state, lookup Qb1 next_state, lookup Qa1 state with
    | some vecA, some vecB, some qaSt =>
      let max_action := argmaxIdx vecA
      match qaSt.get? action, vecB.get? max_action with
      | some old, some boot =>
          some (setKey Qa1 state
            (qaSt.set action (old + alpha * (reward + discount_factor * boot - old))),
            Qb1)
      | _, _ => none
    | _, _, _ => none
  else
    match lookup Qb1 next_state, lookup Qa1 next_state, lookup Qb1 state with
    | some vecB, some vecA, some qbSt =>
      let max_action := argmaxIdx vecB
      match qbSt.get? action, vecA.get? max_action with
      | some old, some boot =>
          some (Qa1, setKey Qb1 state
            (qbSt.set action (old + alpha * (reward + discount_factor * boot - old))))
      | _, _ => none
    | _, _, _ => none

instance : DecidableEq (StepLog ℕ) := inferInstance

instance : DecidableEq (Table ℕ) := inferInstance

/-- Tiny deterministic test environment on states 0 and 1 with two actions:
every action terminates the episode, action 0 yields reward 1 and action 1
yields reward -1 (the spec's concrete scenario, used to instantiate the
theorems below at concrete inputs). -/
def miniEnv : Env ℕ where
  reset := 0
  step := fun _ a => (1, if a = 0 then 1 else -1, true)
  numActions := 2

/-- A fixed random draw record: uniform draw 1/2, exploration action 0,
coin heads. -/
def rW : StepRand := ⟨1/2, 0, true⟩

/-! Basic lemmas about the table operations. -/

theorem lookup_eq_none_iff (t : Table S) (k : S) :
    lookup t k = none ↔ k ∉ keys t := by
  induction t with
  | nil => simp [lookup, keys]
  | cons p rest ih =>
    obtain ⟨k', v⟩ := p
    by_cases h : k = k' <;> simp [lookup, keys, h, ih]

theorem lookup_isSome_iff (t : Table S) (k : S) :
    (lookup t k).isSome = true ↔ k ∈ keys t := by
  rw [Option.isSome_iff_ne_none]
  constructor
  · intro h
    by_contra hk
    exact h ((lookup_eq_none_iff t k).2 hk)
  · intro h hn
    exact ((lookup_eq_none_iff t k).1 hn) h

theorem lookup_setKey_self (t : Table S) (k : S) (v : Vec) :
    lookup (setKey t k v) k = some v := by
  induction t with
  | nil => simp [setKey, lookup]
  | cons p rest ih =>
    obtain ⟨k', v'⟩ := p
    by_cases h : k = k' <;> simp [setKey, lookup, h, ih]

theorem lookup_setKey_ne (t : Table S) (k k' : S) (v : Vec) (h : k' ≠ k) :
    lookup (setKey t k v) k' = lookup t k' := by
  induction t with
  | nil => simp [setKey, lookup, h]
  | cons p rest ih =>
    obtain ⟨k₀, v₀⟩ := p
    by_cases hk : k = k₀
    · subst hk
      simp [setKey, lookup, h]
    · by_cases hk' : k' = k₀ <;> simp [setKey, lookup, hk, hk', ih]

theorem keys_append_single (t : Table S) (k : S) (v : Vec) :
    keys (t ++ [(k, v)]) = keys t ++ [k] := by
  simp [keys]

theorem keys_cons (k : S) (v : Vec) (t : Table S) :
    keys ((k, v) :: t) = k :: keys t := rfl

theorem keys_setKey_of_mem (t : Table S) (k : S) (v : Vec) (h : k ∈ keys t) :
    keys (setKey t k v) = keys t := by
  induction t with
  | nil => simp [keys] at h
  | cons p rest ih =>
    obtain ⟨k₀, v₀⟩ := p
    by_cases hk : k = k₀
    · simp [setKey, hk, keys_cons]
    · rw [keys_cons] at h
      rcases List.mem_cons.1 h with h₀ | h₁
      · exact absurd h₀ hk
      · simp [setKey, hk, keys_cons, ih h₁]

theorem keys_setKey_of_not_mem (t : Table S) (k : S) (v : Vec)
    (h : k ∉ keys t) : keys (setKey t k v) = keys t ++ [k] := by
  induction t with
  | nil => simp [setKey, keys]
  | cons p rest ih =>
    obtain ⟨k₀, v₀⟩ := p
    rw [keys_cons] at h
    have hk : k ≠ k₀ := fun hc => h (hc ▸ List.mem_cons_self _ _)
    have hr : k ∉ keys rest := fun hc => h (List.mem_cons_of_mem _ hc)
    simp [setKey, hk, keys_cons, ih hr]

theorem setdefault_of_mem (t : Table S) (k : S) (v w : Vec)
    (h : lookup t k = some w) : setdefault t k v = (t, w) := by
  simp [setdefault, h]

theorem setdefault_of_not_mem (t : Table S) (k : S) (v : Vec)
    (h : lookup t k = none) : setdefault t k v = (t ++ [(k, v)], v) := by
  simp [setdefault, h]

theorem keys_setdefault (t : Table S) (k : S) (v : Vec) :
    keys (setdefault t k v).1 =
      if k ∈ keys t then keys t else keys t ++ [k] := by
  by_cases h : k ∈ keys t
  · have hs : (lookup t k).isSome = true := (lookup_isSome_iff t k).2 h
    obtain ⟨w, hw⟩ := Option.isSome_iff_exists.1 hs
    simp [setdefault, hw, h]
  · have hn : lookup t k = none := (lookup_eq_none_iff t k).2 h
    simp [setdefault, hn, h, keys_append_single]

theorem lookup_append_right (t : Table S) (k : S) (v : Vec)
    (h : lookup t k = none) : lookup (t ++ [(k, v)]) k = some v := by
  induction t with
  | nil => simp [lookup]
  | cons p rest ih =>
    obtain ⟨k₀, v₀⟩ := p
    by_cases hk : k = k₀
    · simp [lookup, hk] at h
    · simp [lookup, hk] at h ⊢
      exact ih h

theorem lookup_setdefault_self (t : Table S) (k : S) (v : Vec) :
    lookup (setdefault t k v).1 k = some (setdefault t k v).2 := by
  cases h : lookup t k with
  | none => simp [setdefault, h, lookup_append_right t k v h]
  | some w => simp [setdefault, h]

theorem keys_setKey_sync {Qa Qb : Table S} (k : S) (v w : Vec)
    (h : keys Qa = keys Qb) : keys (setKey Qa k v) = keys (setKey Qb k w) := by
  by_cases hk : k ∈ keys Qa
  · rw [keys_setKey_of_mem Qa k v hk, keys_setKey_of_mem Qb k w (h ▸ hk), h]
  · rw [keys_setKey_of_not_mem Qa k v hk,
      keys_setKey_of_not_mem Qb k w (fun hc => hk (h ▸ hc)), h]

theorem keys_setdefault_sync {Qa Qb : Table S} (k : S) (v w : Vec)
    (h : keys Qa = keys Qb) :
    keys (setdefault Qa k v).1 = keys (setdefault Qb k w).1 := by
  rw [keys_setdefault, keys_setdefault, h]

/-! Lemmas about `vecMax` and `argmaxIdx` (the semantics of `np.argmax`). -/

theorem le_foldl_max (xs : List ℚ) (a : ℚ) : a ≤ xs.foldl max a := by
  induction xs generalizing a with
  | nil => exact le_refl a
  | cons x xs ih => exact le_trans (le_max_left a x) (ih (max a x))

theorem foldl_max_mem (xs : List ℚ) (a : ℚ) :
    xs.foldl max a = a ∨ xs.foldl max a ∈ xs := by
  induction xs generalizing a with
  | nil => exact Or.inl rfl
  | cons x xs ih =>
    rcases ih (max a x) with h | h
    · rcases max_choice a x with hm | hm
      · exact Or.inl (by rw [List.foldl_cons, h, hm])
      · exact Or.inr (by rw [List.foldl_cons, h, hm]; exact List.mem_cons_self x xs)
    · exact Or.inr (List.mem_cons_of_mem x h)

theorem le_foldl_max_of_mem {xs : List ℚ} {x : ℚ} (a : ℚ) (h : x ∈ xs) :
    x ≤ xs.foldl max a := by
  induction xs generalizing a with
  | nil => cases h
  | cons y ys ih =>
    rcases List.mem_cons.1 h with h₀ | h₁
    · subst h₀
      exact le_trans (le_max_right a x) (le_foldl_max ys (max a x))
    · exact ih (max a y) h₁

theorem vecMax_mem (v : Vec) (h : v ≠ []) : vecMax v ∈ v := by
  cases v with
  | nil => exact absurd rfl h
  | cons x xs =>
    rcases foldl_max_mem xs x with h₀ | h₀
    · rw [vecMax, h₀]; exact List.mem_cons_self x xs
    · rw [vecMax]; exact List.mem_cons_of_mem x h₀

theorem le_vecMax (v : Vec) (x : ℚ) (h : x ∈ v) : x ≤ vecMax v := by
  cases v with
  | nil => cases h
  | cons y ys =>
    rcases List.mem_cons.1 h with h₀ | h₁
    · subst h₀
      exact le_foldl_max ys x
    · exact le_foldl_max_of_mem y h₁

theorem get_ne_of_lt_indexOf {α : Type} [DecidableEq α] :
    ∀ (l : List α) (a : α) (j : ℕ) (hj : j < l.length),
      j < l.indexOf a → l.get ⟨j, hj⟩ ≠ a
  | [], _, _, hj, _ => absurd hj (Nat.not_lt_zero _)
  | x :: xs, a, j, hj, hlt => by
    by_cases hx : x = a
    · rw [List.indexOf_cons, hx] at hlt
      simp at hlt
    · cases j with
      | zero => simpa using hx
      | succ j' =>
        rw [List.indexOf_cons] at hlt
        have hxa : (x == a) = false := beq_false_of_ne hx
        rw [hxa] at hlt
        simp only [cond_false] at hlt
        have hlt' : j' < xs.indexOf a := Nat.lt_of_succ_lt_succ hlt
        have hj' : j' < xs.length := Nat.lt_of_succ_lt_succ (by simpa using hj)
        simpa using get_ne_of_lt_indexOf xs a j' hj' hlt'

theorem argmaxIdx_lt_length (v : Vec) (h : v ≠ []) : argmaxIdx v < v.length :=
  List.indexOf_lt_length.2 (vecMax_mem v h)

theorem get_argmaxIdx (v : Vec) (h : argmaxIdx v < v.length) :
    v.get ⟨argmaxIdx v, h⟩ = vecMax v :=
  List.indexOf_get h

theorem get_le_get_argmaxIdx (v : Vec) (j : ℕ) (hj : j < v.length)
    (h : argmaxIdx v < v.length) :
    v.get ⟨j, hj⟩ ≤ v.get ⟨argmaxIdx v, h⟩ := by
  rw [get_argmaxIdx v h]
  exact le_vecMax v _ (List.get_mem v j hj)

theorem get_lt_get_argmaxIdx_of_lt (v : Vec) (j : ℕ) (hj : j < v.length)
    (h : argmaxIdx v < v.length) (hlt : j < argmaxIdx v) :
    v.get ⟨j, hj⟩ < v.get ⟨argmaxIdx v, h⟩ := by
  have hne : v.get ⟨j, hj⟩ ≠ vecMax v := get_ne_of_lt_indexOf v (vecMax v) j hj hlt
  have hle : v.get ⟨j, hj⟩ ≤ v.get ⟨argmaxIdx v, h⟩ := get_le_get_argmaxIdx v j hj h
  rw [get_argmaxIdx v h] at hle ⊢
  exact lt_of_le_of_ne hle hne

/-- Element-wise access of the element-wise sum. -/
theorem addVec_get? :
    ∀ (va vb : Vec) (a : ℕ) (x y : ℚ), va.get? a = some x → vb.get? a = some y →
      (addVec va vb).get? a = some (x + y)
  | [], _, _, _, _, h, _ => by simp [List.get?] at h
  | _ :: _, [], _, _, _, _, h => by simp [List.get?] at h
  | xa :: ra, xb :: rb, 0, x, y, hx, hy => by
    simp [List.get?] at hx hy
    simp [addVec, List.get?, hx, hy]
  | xa :: ra, xb :: rb, a + 1, x, y, hx, hy => by
    simp only [List.get?] at hx hy
    simpa [addVec, List.get?] using addVec_get? ra rb a x y hx hy

/-! Characterization of the two branches of `stepUpdate`. -/

theorem stepUpdate_true_eq {Qa Qb : Table S} {nx st : S} {qaSt : Vec}
    {old boot g al : ℚ} {n a : ℕ} {r : ℚ}
    (hl : lookup (setdefault Qa nx (zeros n)).1 st = some qaSt)
    (ho : qaSt.get? a = some old)
    (hb : (setdefault Qb nx (zeros n)).2.get?
      (argmaxIdx (setdefault Qa nx (zeros n)).2) = some boot) :
    stepUpdate g al n true Qa Qb st a nx r =
      some (setKey (setdefault Qa nx (zeros n)).1 st
        (qaSt.set a (old + al * (r + g * boot - old))),
        (setdefault Qb nx (zeros n)).1) := by
  rw [List.get?_eq_getElem?] at ho hb
  simp [stepUpdate, hl, ho, hb]

theorem stepUpdate_false_eq {Qa Qb : Table S} {nx st : S} {qbSt : Vec}
    {old boot g al : ℚ} {n a : ℕ} {r : ℚ}
    (hl : lookup (setdefault Qb nx (zeros n)).1 st = some qbSt)
    (ho : qbSt.get? a = some old)
    (hb : (setdefault Qa nx (zeros n)).2.get?
      (argmaxIdx (setdefault Qb nx (zeros n)).2) = some boot) :
    stepUpdate g al n false Qa Qb st a nx r =
      some ((setdefault Qa nx (zeros n)).1,
        setKey (setdefault Qb nx (zeros n)).1 st
          (qbSt.set a (old + al * (r + g * boot - old)))) := by
  rw [List.get?_eq_getElem?] at ho hb
  simp [stepUpdate, hl, ho, hb]

theorem stepUpdate_some_true {Qa Qb Qa' Qb' : Table S} {nx st : S}
    {g al : ℚ} {n a : ℕ} {r : ℚ}
    (hs : stepUpdate g al n true Qa Qb st a nx r = some (Qa', Qb')) :
    ∃ qaSt old boot,
      lookup (setdefault Qa nx (zeros n)).1 st = some qaSt ∧
      qaSt.get? a = some old ∧
      (setdefault Qb nx (zeros n)).2.get?
        (argmaxIdx (setdefault Qa nx (zeros n)).2) = some boot ∧
      Qa' = setKey (setdefault Qa nx (zeros n)).1 st
        (qaSt.set a (old + al * (r + g * boot - old))) ∧
      Qb' = (setdefault Qb nx (zeros n)).1 := by
  simp only [stepUpdate, reduceIte] at hs
  split at hs
  · exact Option.noConfusion hs
  · rename_i qaSt hl
    split at hs
    · exact Option.noConfusion hs
    · rename_i old ho
      split at hs
      · exact Option.noConfusion hs
      · rename_i boot hb
        simp only [Option.some.injEq, Prod.mk.injEq] at hs
        exact ⟨qaSt, old, boot, hl, ho, hb, hs.1.symm, hs.2.symm⟩

theorem stepUpdate_some_false {Qa Qb Qa' Qb' : Table S} {nx st : S}
    {g al : ℚ} {n a : ℕ} {r : ℚ}
    (hs : stepUpdate g al n false Qa Qb st a nx r = some (Qa', Qb')) :
    ∃ qbSt old boot,
      lookup (setdefault Qb nx (zeros n)).1 st = some qbSt ∧
      qbSt.get? a = some old ∧
      (setdefault Qa nx (zeros n)).2.get?
        (argmaxIdx (setdefault Qb nx (zeros n)).2) = some boot ∧
      Qa' = (setdefault Qa nx (zeros n)).1 ∧
      Qb' = setKey (setdefault Qb nx (zeros n)).1 st
        (qbSt.set a (old + al * (r + g * boot - old))) := by
  simp only [stepUpdate, Bool.false_eq_true, if_false] at hs
  split at hs
  · exact Option.noConfusion hs
  · rename_i qbSt hl
    split at hs
    · exact Option.noConfusion hs
    · rename_i old ho
      split at hs
      · exact Option.noConfusion hs
      · rename_i boot hb
        simp only [Option.some.injEq, Prod.mk.injEq] at hs
        exact ⟨qbSt, old, boot, hl, ho, hb, hs.1.symm, hs.2.symm⟩

/-- A successful `stepUpdate` keeps the two key lists synchronized. -/
theorem stepUpdate_keys_sync {Qa Qb Qa' Qb' : Table S} {nx st : S}
    {g al : ℚ} {n a : ℕ} {r : ℚ} {coin : Bool} (h : keys Qa = keys Qb)
    (hs : stepUpdate g al n coin Qa Qb st a nx r = some (Qa', Qb')) :
    keys Qa' = keys Qb' := by
  cases coin
  · obtain ⟨qbSt, old, boot, hl, ho, hb, hQa, hQb⟩ := stepUpdate_some_false hs
    subst hQa
    subst hQb
    have hmem : st ∈ keys (setdefault Qb nx (zeros n)).1 :=
      (lookup_isSome_iff _ _).1 (by rw [hl]; rfl)
    rw [keys_setKey_of_mem _ _ _ hmem]
    exact keys_setdefault_sync nx _ _ h
  · obtain ⟨qaSt, old, boot, hl, ho, hb, hQa, hQb⟩ := stepUpdate_some_true hs
    subst hQa
    subst hQb
    have hmem : st ∈ keys (setdefault Qa nx (zeros n)).1 :=
      (lookup_isSome_iff _ _).1 (by rw [hl]; rfl)
    rw [keys_setKey_of_mem _ _ _ hmem]
    exact keys_setdefault_sync nx _ _ h

/-- A successful episode keeps the two key lists synchronized. -/
theorem runEpisode_keys_sync {env : Env S} {eps g al : ℚ} :
    ∀ (rs : List StepRand) (st : S) (Qa Qb Qa' Qb' : Table S) (i : ℕ) (R : ℚ)
      (i' : ℕ) (R' : ℚ) (rs' : List StepRand),
      keys Qa = keys Qb →
      runEpisode env eps g al rs st Qa Qb i R = some (Qa', Qb', i', R', rs') →
      keys Qa' = keys Qb'
  | [], _, _, _, _, _, _, _, _, _, _, _, hs => Option.noConfusion hs
  | r :: rs, st, Qa, Qb, Qa', Qb', i, R, i', R', rs', h, hs => by
    simp only [runEpisode] at hs
    split at hs
    · exact Option.noConfusion hs
    · rename_i action hact
      split at hs
      · exact Option.noConfusion hs
      · rename_i Qa1 Qb1 hstep
        have hsync : keys Qa1 = keys Qb1 := stepUpdate_keys_sync h hstep
        split at hs
        · simp only [Option.some.injEq, Prod.mk.injEq] at hs
          rw [← hs.1, ← hs.2.1]
          exact hsync
        · exact runEpisode_keys_sync rs _ Qa1 Qb1 Qa' Qb' _ _ i' R' rs' hsync hs

/-- A successful multi-episode run keeps the two key lists synchronized. -/
theorem runEpisodes_keys_sync {env : Env S} {eps g al : ℚ} :
    ∀ (n : ℕ) (rs : List StepRand) (Qa Qb Qa' Qb' : Table S)
      (stats stats' : List (ℕ × ℚ)) (rs' : List StepRand),
      keys Qa = keys Qb →
      runEpisodes env eps g al n rs Qa Qb stats =
        some (Qa', Qb', stats', rs') →
      keys Qa' = keys Qb'
  | 0, rs, Qa, Qb, Qa', Qb', stats, stats', rs', h, hs => by
    simp only [runEpisodes, Option.some.injEq, Prod.mk.injEq] at hs
    rw [← hs.1, ← hs.2.1]
    exact h
  | n + 1, rs, Qa, Qb, Qa', Qb', stats, stats', rs', h, hs => by
    simp only [runEpisodes, episodeInit] at hs
    split at hs
    · exact Option.noConfusion hs
    · rename_i Qa1 Qb1 i R rs1 hep
      have h0 : keys (setKey Qa env.reset (zeros env.numActions)) =
          keys (setKey Qb env.reset (zeros env.numActions)) :=
        keys_setKey_sync _ _ _ h
      have hsync : keys Qa1 = keys Qb1 :=
        runEpisode_keys_sync _ _ _ _ _ _ _ _ _ _ _ h0 hep
      exact runEpisodes_keys_sync n rs1 Qa1 Qb1 Qa' Qb' _ stats' rs' hsync hs

/-- Element-wise content of a successful merge, at every key of the first
table. -/
theorem mergeTables_lookup :
    ∀ (Qa Qb Q : Table S), mergeTables Qa Qb = some Q → ∀ s ∈ keys Qa,
      ∃ va vb, lookup Qa s = some va ∧ lookup Qb s = some vb ∧
        lookup Q s = some (addVec va vb)
  | [], _, _, _, s, hsk => by simp [keys] at hsk
  | (k, v) :: rest, Qb, Q, hm, s, hsk => by
    simp only [mergeTables] at hm
    split at hm
    · exact Option.noConfusion hm
    · rename_i w hw
      split at hm
      · exact Option.noConfusion hm
      · rename_i m hrec
        simp only [Option.some.injEq] at hm
        subst hm
        by_cases hks : s = k
        · subst hks
          exact ⟨v, w, by simp [lookup], hw, by simp [lookup]⟩
        · rw [keys_cons] at hsk
          rcases List.mem_cons.1 hsk with h₀ | h₁
          · exact absurd h₀ hks
          · obtain ⟨va, vb, hva, hvb, hq⟩ := mergeTables_lookup rest Qb m hrec s h₁
            exact ⟨va, vb, by simp [lookup, hks, hva], hvb, by simp [lookup, hks, hq]⟩

/-- The merge succeeds exactly when every key of the first table is present
in the second. -/
theorem mergeTables_isSome_iff :
    ∀ (Qa Qb : Table S), (mergeTables Qa Qb).isSome = true ↔
      ∀ s ∈ keys Qa, (lookup Qb s).isSome = true
  | [], Qb => by simp [mergeTables, keys]
  | (k, v) :: rest, Qb => by
    constructor
    · intro h s hsk
      simp only [mergeTables] at h
      split at h
      · simp at h
      · rename_i w hw
        split at h
        · simp at h
        · rename_i m hrec
          rw [keys_cons] at hsk
          rcases List.mem_cons.1 hsk with h₀ | h₁
          · rw [h₀, hw]; rfl
          · exact (mergeTables_isSome_iff rest Qb).1 (by rw [hrec]; rfl) s h₁
    · intro h
      have hk : (lookup Qb k).isSome = true :=
        h k (by rw [keys_cons]; exact List.mem_cons_self _ _)
      obtain ⟨w, hw⟩ := Option.isSome_iff_exists.1 hk
      have hrest : (mergeTables rest Qb).isSome = true :=
        (mergeTables_isSome_iff rest Qb).2 (fun s hs =>
          h s (by rw [keys_cons]; exact List.mem_cons_of_mem _ hs))
      obtain ⟨m, hm⟩ := Option.isSome_iff_exists.1 hrest
      simp [mergeTables, hw, hm]

/-- Dropping the ghost log from the instrumented episode runner recovers the
episode runner transcribed from the source. -/
theorem runEpisode_eq_runEpisodeR {env : Env S} {eps g al : ℚ} :
    ∀ (rs : List StepRand) (st : S) (Qa Qb : Table S) (i : ℕ) (R : ℚ),
      runEpisode env eps g al rs st Qa Qb i R =
        (runEpisodeR env eps g al rs st Qa Qb i R).map
          (fun x => (x.1, x.2.1, x.2.2.1, x.2.2.2.1, x.2.2.2.2.2))
  | [], _, _, _, _, _ => rfl
  | r :: rs, st, Qa, Qb, i, R => by
    simp only [runEpisode, runEpisodeR]
    cases hact : sample_action Qa Qb eps r.u r.explore st with
    | none => rfl
    | some action =>
      rcases henv : env.step st action with ⟨nx, rew, dn⟩
      cases hstep : stepUpdate g al env.numActions r.coin Qa Qb st action nx rew with
      | none => simp [henv, hstep]
      | some p =>
        obtain ⟨Qa', Qb'⟩ := p
        cases dn with
        | true => simp [henv, hstep]
        | false =>
          simp only [henv, hstep]
          rw [runEpisode_eq_runEpisodeR rs nx Qa' Qb' (i + 1) (R + rew)]
          cases hr : runEpisodeR env eps g al rs nx Qa' Qb' (i + 1) (R + rew) with
          | none => simp
          | some y => simp

/-- In a successful instrumented episode, the final step count `i` and
return `R` are the initial values plus the number of logged steps and the
sum of the logged rewards. -/
theorem runEpisodeR_count {env : Env S} {eps g al : ℚ} :
    ∀ (rs : List StepRand) (st : S) (Qa Qb : Table S) (i : ℕ) (R : ℚ)
      (Qa' Qb' : Table S) (i' : ℕ) (R' : ℚ) (log : List (StepLog S))
      (rs' : List StepRand),
      runEpisodeR env eps g al rs st Qa Qb i R =
        some (Qa', Qb', i', R', log, rs') →
      i' = i + log.length ∧ R' = R + (log.map (fun e => e.2.1)).sum
  | [], _, _, _, _, _, _, _, _, _, _, _, hs => Option.noConfusion hs
  | r :: rs, st, Qa, Qb, i, R, Qa', Qb', i', R', log, rs', hs => by
    simp only [runEpisodeR] at hs
    split at hs
    · exact Option.noConfusion hs
    · rename_i action hact
      split at hs
      · exact Option.noConfusion hs
      · rename_i Qa1 Qb1 hstep
        split at hs
        · simp only [Option.some.injEq, Prod.mk.injEq] at hs
          obtain ⟨-, -, hi, hR, hlog, -⟩ := hs
          subst hlog
          constructor
          · rw [← hi]; simp
          · rw [← hR]; simp
        · split at hs
          · exact Option.noConfusion hs
          · rename_i Qa2 Qb2 i2 R2 log2 rs2 hy
            simp only [Option.some.injEq, Prod.mk.injEq] at hs
            obtain ⟨-, -, hi, hR, hlog, -⟩ := hs
            obtain ⟨hi2, hR2⟩ := runEpisodeR_count rs _ _ _ _ _ _ _ _ _ _ _ hy
            subst hlog
            constructor
            · rw [← hi, hi2]
              simp only [List.length_cons]
              omega
            · rw [← hR, hR2]
              simp only [List.map_cons, List.sum_cons]
              ring

/-- Dropping the ghost logs from the instrumented multi-episode runner
recovers the runner transcribed from the source. -/
theorem runEpisodes_eq_runEpisodesR {env : Env S} {eps g al : ℚ} :
    ∀ (n : ℕ) (rs : List StepRand) (Qa Qb : Table S)
      (statsR : List (ℕ × ℚ × List (StepLog S))),
      runEpisodes env eps g al n rs Qa Qb
          (statsR.map (fun e => (e.1, e.2.1))) =
        (runEpisodesR env eps g al n rs Qa Qb statsR).map
          (fun x => (x.1, x.2.1, x.2.2.1.map (fun e => (e.1, e.2.1)), x.2.2.2))
  | 0, rs, Qa, Qb, statsR => rfl
  | n + 1, rs, Qa, Qb, statsR => by
    simp only [runEpisodes, runEpisodesR, episodeInit]
    rw [runEpisode_eq_runEpisodeR]
    cases hr : runEpisodeR env eps g al rs env.reset
        (setKey Qa env.reset (zeros env.numActions))
        (setKey Qb env.reset (zeros env.numActions)) 0 0 with
    | none => simp
    | some y =>
      obtain ⟨Qa', Qb', i, R, log, rs'⟩ := y
      simp only [Option.map]
      have hst : (statsR.map (fun e => (e.1, e.2.1))) ++ [(i, R)] =
          ((statsR ++ [(i, R, log)]).map (fun e => (e.1, e.2.1))) := by simp
      rw [hst, runEpisodes_eq_runEpisodesR n rs' Qa' Qb' (statsR ++ [(i, R, log)])]
      cases runEpisodesR env eps g al n rs' Qa' Qb' (statsR ++ [(i, R, log)]) <;> rfl

/-- Every per-episode record produced by a successful instrumented run has
its step count equal to the number of logged steps and its return equal to
the sum of the logged rewards; the run appends exactly one record per
episode. -/
theorem runEpisodesR_stats {env : Env S} {eps g al : ℚ} :
    ∀ (n : ℕ) (rs : List StepRand) (Qa Qb : Table S)
      (statsR : List (ℕ × ℚ × List (StepLog S))) (Qa' Qb' : Table S)
      (statsR' : List (ℕ × ℚ × List (StepLog S))) (rs' : List StepRand),
      runEpisodesR env eps g al n rs Qa Qb statsR =
        some (Qa', Qb', statsR', rs') →
      (∀ e ∈ statsR, e.1 = e.2.2.length ∧
        e.2.1 = (e.2.2.map (fun s => s.2.1)).sum) →
      statsR'.length = statsR.length + n ∧
        ∀ e ∈ statsR', e.1 = e.2.2.length ∧
          e.2.1 = (e.2.2.map (fun s => s.2.1)).sum
  | 0, rs, Qa, Qb, statsR, Qa', Qb', statsR', rs', hs, h => by
    simp only [runEpisodesR, Option.some.injEq, Prod.mk.injEq] at hs
    obtain ⟨-, -, hst, -⟩ := hs
    subst hst
    exact ⟨by omega, h⟩
  | n + 1, rs, Qa, Qb, statsR, Qa', Qb', statsR', rs', hs, h => by
    simp only [runEpisodesR, episodeInit] at hs
    split at hs
    · exact Option.noConfusion hs
    · rename_i Qa1 Qb1 i R log rs1 hep
      obtain ⟨hi, hR⟩ := runEpisodeR_count _ _ _ _ _ _ _ _ _ _ _ _ hep
      have hprop : ∀ e ∈ statsR ++ [(i, R, log)], e.1 = e.2.2.length ∧
          e.2.1 = (e.2.2.map (fun s => s.2.1)).sum := by
        intro e he
        rcases List.mem_append.1 he with h₀ | h₁
        · exact h e h₀
        · have he' : e = (i, R, log) := List.mem_singleton.1 h₁
          subst he'
          refine ⟨?_, ?_⟩
          · simpa using hi
          · simpa using hR
      obtain ⟨hlen, hall⟩ :=
        runEpisodesR_stats n rs1 Qa1 Qb1 (statsR ++ [(i, R, log)])
          Qa' Qb' statsR' rs' hs hprop
      refine ⟨?_, hall⟩
      rw [hlen]
      simp only [List.length_append, List.length_singleton]
      omega

/-! Claim theorems. -/

/-- C1: in every loop step, once the transition (next_state, reward, done)
is observed, the coin decides the update: heads sets `max_action` to
`argmax` of `Q_a[next_state]` (after its lazy zero insertion) and overwrites
`Q_a[state][action]` with
`old + alpha * (reward + discount_factor * Q_b[next_state][max_action] - old)`;
tails performs the symmetric update with the roles of the two tables
swapped. -/
theorem C1_coin_update (g al r : ℚ) (n a : ℕ) (Qa Qb : Table S)
    (st nx : S) :
    (∀ (qaSt : Vec) (old boot : ℚ),
      lookup (setdefault Qa nx (zeros n)).1 st = some qaSt →
      qaSt.get? a = some old →
      (setdefault Qb nx (zeros n)).2.get?
        (argmaxIdx (setdefault Qa nx (zeros n)).2) = some boot →
      stepUpdate g al n true Qa Qb st a nx r =
        some (setKey (setdefault Qa nx (zeros n)).1 st
          (qaSt.set a (old + al * (r + g * boot - old))),
          (setdefault Qb nx (zeros n)).1)) ∧
    (∀ (qbSt : Vec) (old boot : ℚ),
      lookup (setdefault Qb nx (zeros n)).1 st = some qbSt →
      qbSt.get? a = some old →
      (setdefault Qa nx (zeros n)).2.get?
        (argmaxIdx (setdefault Qb nx (zeros n)).2) = some boot →
      stepUpdate g al n false Qa Qb st a nx r =
        some ((setdefault Qa nx (zeros n)).1,
          setKey (setdefault Qb nx (zeros n)).1 st
            (qbSt.set a (old + al * (r + g * boot - old))))) :=
  ⟨fun _ _ _ hl ho hb => stepUpdate_true_eq hl ho hb,
   fun _ _ _ hl ho hb => stepUpdate_false_eq hl ho hb⟩

theorem C1_coin_update_witness :
    stepUpdate (S := ℕ) 1 1 2 true [(0, [0, 0]), (1, [5, 0])]
        [(0, [0, 0]), (1, [0, 3])] 0 0 1 0 =
      some (setKey (setdefault (S := ℕ) [(0, [0, 0]), (1, [5, 0])] 1
          (zeros 2)).1 0
        (List.set [0, 0] 0 (0 + 1 * (0 + 1 * 0 - 0))),
        (setdefault (S := ℕ) [(0, [0, 0]), (1, [0, 3])] 1 (zeros 2)).1) :=
  (C1_coin_update 1 1 0 2 0 [(0, [0, 0]), (1, [5, 0])]
      [(0, [0, 0]), (1, [0, 3])] 0 1).1 [0, 0] 0 0
    (by with_unfolding_all decide) (by with_unfolding_all decide)
    (by with_unfolding_all decide)

/-- C2 counterexample: at a heads step whose two next-state argmaxes differ
(`argmax Q_a[next] = 0` but `argmax Q_b[next] = 1`), the code's update is
not the update that takes `max_action` from the other table — the code
picks `max_action` from the very table it is updating. -/
theorem C2_counterexample :
    stepUpdate (S := ℕ) 1 1 2 true [(0, [0, 0]), (1, [5, 0])]
        [(0, [0, 0]), (1, [0, 3])] 0 0 1 0 ≠
      stepUpdateArgmaxOther (S := ℕ) 1 1 2 true [(0, [0, 0]), (1, [5, 0])]
        [(0, [0, 0]), (1, [0, 3])] 0 0 1 0 := by
  with_unfolding_all decide

/-- C2 amended: in every step the table being updated supplies its own
argmax action (`max_action`), while the bootstrap VALUE fed into the update
target always comes from the other table: the code's step update coincides
with the spec-style cross-evaluation step on all inputs. -/
theorem C2_bootstrap_from_other_table (g al : ℚ) (n : ℕ) (coin : Bool)
    (Qa Qb : Table S) (st : S) (a : ℕ) (nx : S) (r : ℚ) :
    stepUpdate g al n coin Qa Qb st a nx r =
      specStepCross g al n coin Qa Qb st a nx r := by
  cases coin
  · cases hst : lookup (setdefault Qb nx (zeros n)).1 st with
    | none => simp [stepUpdate, specStepCross, lookup_setdefault_self, hst]
    | some qbSt =>
      cases ho : qbSt[a]? with
      | none =>
        simp [stepUpdate, specStepCross, lookup_setdefault_self, hst, ho]
      | some old =>
        cases hb : (setdefault Qa nx
            (zeros n)).2[argmaxIdx (setdefault Qb nx (zeros n)).2]? with
        | none =>
          simp [stepUpdate, specStepCross, lookup_setdefault_self, hst, ho, hb]
        | some boot =>
          simp [stepUpdate, specStepCross, lookup_setdefault_self, hst, ho, hb]
  · cases hst : lookup (setdefault Qa nx (zeros n)).1 st with
    | none => simp [stepUpdate, specStepCross, lookup_setdefault_self, hst]
    | some qaSt =>
      cases ho : qaSt[a]? with
      | none =>
        simp [stepUpdate, specStepCross, lookup_setdefault_self, hst, ho]
      | some old =>
        cases hb : (setdefault Qb nx
            (zeros n)).2[argmaxIdx (setdefault Qa nx (zeros n)).2]? with
        | none =>
          simp [stepUpdate, specStepCross, lookup_setdefault_self, hst, ho, hb]
        | some boot =>
          simp [stepUpdate, specStepCross, lookup_setdefault_self, hst, ho, hb]

/-- C4: the merged table returned by the training function is the
element-wise sum of the two final tables, at every state of `Q_a`'s final
key set and every action index present in the vectors. -/
theorem C4_merge_elementwise (env : Env S) (eps g al : ℚ) (n : ℕ)
    (rs rs' : List StepRand) (Qa Qb QaF QbF : Table S)
    (stats : List (ℕ × ℚ)) (Q : Table S) (lens : List ℕ) (rets : List ℚ)
    (hrun : runEpisodes env eps g al n rs Qa Qb [] =
      some (QaF, QbF, stats, rs'))
    (hdq : double_q_learning env eps g al n rs Qa Qb = some (Q, lens, rets)) :
    ∀ s ∈ keys QaF, ∃ va vb, lookup QaF s = some va ∧
      lookup QbF s = some vb ∧ lookup Q s = some (addVec va vb) ∧
      ∀ (a : ℕ) (x y : ℚ), va.get? a = some x → vb.get? a = some y →
        (addVec va vb).get? a = some (x + y) := by
  intro s hs
  simp only [double_q_learning, hrun] at hdq
  split at hdq
  · exact Option.noConfusion hdq
  · rename_i lens0 rets0 hz
    split at hdq
    · exact Option.noConfusion hdq
    · rename_i q0 hm
      simp only [Option.some.injEq, Prod.mk.injEq] at hdq
      obtain ⟨hQ, -, -⟩ := hdq
      subst hQ
      obtain ⟨va, vb, hva, hvb, hq⟩ := mergeTables_lookup QaF QbF q0 hm s hs
      exact ⟨va, vb, hva, hvb, hq,
        fun a x y hx hy => addVec_get? va vb a x y hx hy⟩

theorem C4_merge_elementwise_witness :
    lookup (S := ℕ) [(0, [1/2, 0]), (1, [0, 0])] 0 =
      some (addVec [1/2, 0] [0, 0]) := by
  have h := C4_merge_elementwise miniEnv 0 1 (1/2) 1 [rW] [] [] []
    [(0, [1/2, 0]), (1, [0, 0])] [(0, [0, 0]), (1, [0, 0])] [(1, 1)]
    [(0, [1/2, 0]), (1, [0, 0])] [1] [1]
    (by with_unfolding_all decide) (by with_unfolding_all decide)
    0 (by with_unfolding_all decide)
  obtain ⟨va, vb, hva, hvb, hq, -⟩ := h
  have hva' : va = [1/2, 0] := by
    have h2 : some va = some [1/2, 0] := by
      rw [← hva]
      with_unfolding_all decide
    exact Option.some.inj h2
  have hvb' : vb = [0, 0] := by
    have h2 : some vb = some [0, 0] := by
      rw [← hvb]
      with_unfolding_all decide
    exact Option.some.inj h2
  subst hva'
  subst hvb'
  exact hq

/-- C7: for a run whose every episode completes (a successful run), the two
returned statistics sequences both have length `num_episodes`, and the j-th
entries are exactly the step count and the exact sum of the rewards
observed during the j-th completed episode, in completion order. -/
theorem C7_stats_alignment (env : Env S) (eps g al : ℚ) (n : ℕ)
    (rs rsF : List StepRand) (Qa Qb QaF QbF : Table S)
    (statsR : List (ℕ × ℚ × List (StepLog S)))
    (Q : Table S) (lens : List ℕ) (rets : List ℚ)
    (hrunR : runEpisodesR env eps g al n rs Qa Qb [] =
      some (QaF, QbF, statsR, rsF))
    (hdq : double_q_learning env eps g al n rs Qa Qb = some (Q, lens, rets)) :
    lens.length = n ∧ rets.length = n ∧
    (∀ j : ℕ, lens.get? j = (statsR.get? j).map (fun e => e.2.2.length)) ∧
    (∀ j : ℕ, rets.get? j =
      (statsR.get? j).map (fun e => (e.2.2.map (fun s => s.2.1)).sum)) := by
  have hproj := @runEpisodes_eq_runEpisodesR S _ env eps g al n rs Qa Qb
    ([] : List (ℕ × ℚ × List (StepLog S)))
  rw [hrunR] at hproj
  simp only [List.map_nil, Option.map_some'] at hproj
  obtain ⟨hlen0, hall⟩ := runEpisodesR_stats n rs Qa Qb [] QaF QbF statsR rsF
    hrunR (fun e he => absurd he (List.not_mem_nil e))
  simp only [List.length_nil, Nat.zero_add] at hlen0
  simp only [double_q_learning, hproj, unzipStats] at hdq
  split at hdq
  · exact Option.noConfusion hdq
  · rename_i s0 rest0 hcons
    split at hdq
    · exact Option.noConfusion hdq
    · rename_i q0 hm
      simp only [Option.some.injEq, Prod.mk.injEq] at hdq
      obtain ⟨-, hlens, hrets⟩ := hdq
      cases hsr : List.map (fun e => (e.1, e.2.1)) statsR with
      | nil =>
        rw [hsr] at hcons
        exact Option.noConfusion hcons
      | cons s1 rest1 =>
      rw [hsr] at hcons
      simp only [Option.some.injEq, Prod.mk.injEq] at hcons
      obtain ⟨hs0, hr0⟩ := hcons
      have hlens' : lens = statsR.map (fun e => e.1) := by
        rw [← hlens, ← hs0, ← hsr, List.map_map]
        rfl
      have hrets' : rets = statsR.map (fun e => e.2.1) := by
        rw [← hrets, ← hr0, ← hsr, List.map_map]
        rfl
      subst hlens'
      subst hrets'
      refine ⟨by simp [hlen0], by simp [hlen0], fun j => ?_, fun j => ?_⟩
      · rw [List.get?_map]
        cases hj : statsR.get? j with
        | none => rfl
        | some e =>
          have he := hall e (List.get?_mem hj)
          simp [he.1]
      · rw [List.get?_map]
        cases hj : statsR.get? j with
        | none => rfl
        | some e =>
          have he := hall e (List.get?_mem hj)
          simp [he.2]

theorem C7_stats_alignment_witness :
    ([1] : List ℕ).length = 1 ∧ ([1] : List ℚ).length = 1 := by
  have h := C7_stats_alignment miniEnv 0 1 (1/2) 1 [rW] [] [] []
    [(0, [1/2, 0]), (1, [0, 0])] [(0, [0, 0]), (1, [0, 0])]
    [(1, 1, [(0, 1, [(0, [1/2, 0]), (1, [0, 0])],
      [(0, [0, 0]), (1, [0, 0])])])]
    [(0, [1/2, 0]), (1, [0, 0])] [1] [1]
    (by with_unfolding_all decide) (by with_unfolding_all decide)
  exact ⟨h.1, h.2.1⟩

/-- C3: starting from key-synchronized tables (in particular from empty
tables), after any number of episode-start insertions and loop steps — i.e.
for every successful run of the training loop — `Q_a` and `Q_b` have
identical key sequences, so their key sets agree whenever the final merge
step runs. -/
theorem C3_keys_synchronized (env : Env S) (eps g al : ℚ) (n : ℕ)
    (rs rs' : List StepRand) (Qa Qb Qa' Qb' : Table S)
    (stats stats' : List (ℕ × ℚ))
    (hsync : keys Qa = keys Qb)
    (hrun : runEpisodes env eps g al n rs Qa Qb stats =
      some (Qa', Qb', stats', rs')) :
    keys Qa' = keys Qb' :=
  runEpisodes_keys_sync n rs Qa Qb Qa' Qb' stats stats' rs' hsync hrun

theorem C3_keys_synchronized_witness :
    keys (S := ℕ) [(0, [1/2, 0]), (1, [0, 0])] =
      keys (S := ℕ) [(0, [0, 0]), (1, [0, 0])] :=
  C3_keys_synchronized miniEnv 0 1 (1/2) 1 [rW] []
    [] [] [(0, [1/2, 0]), (1, [0, 0])] [(0, [0, 0]), (1, [0, 0])]
    [] [(1, 1)] rfl (by with_unfolding_all decide)

/-- C5: for a state present in both tables, `sample_action` forms the
element-wise combined vector; when the uniform draw satisfies
`u ≤ epsilon` it returns the injected uniform exploration draw (the value
of `randint(0, num_actions)`), and otherwise it returns `argmax` of the
combined vector — an index carrying the maximum value, with every earlier
index carrying a strictly smaller value (ties broken by lowest index). -/
theorem C5_sample_action_spec (Qa Qb : Table S) (eps u : ℚ) (k : ℕ) (s : S)
    (va vb : Vec) (ha : lookup Qa s = some va) (hb : lookup Qb s = some vb) :
    (u ≤ eps → sample_action Qa Qb eps u k s = some k) ∧
    (¬ u ≤ eps →
      sample_action Qa Qb eps u k s = some (argmaxIdx (addVec va vb)) ∧
      ∀ hne : addVec va vb ≠ [],
        ∃ hlt : argmaxIdx (addVec va vb) < (addVec va vb).length,
          (∀ (j : ℕ) (hj : j < (addVec va vb).length),
            (addVec va vb).get ⟨j, hj⟩ ≤
              (addVec va vb).get ⟨argmaxIdx (addVec va vb), hlt⟩) ∧
          (∀ (j : ℕ) (hj : j < (addVec va vb).length),
            j < argmaxIdx (addVec va vb) →
            (addVec va vb).get ⟨j, hj⟩ <
              (addVec va vb).get ⟨argmaxIdx (addVec va vb), hlt⟩)) := by
  constructor
  · intro hu
    simp [sample_action, ha, hb, hu]
  · intro hu
    refine ⟨by simp [sample_action, ha, hb, hu], fun hne => ?_⟩
    refine ⟨argmaxIdx_lt_length _ hne, fun j hj => ?_, fun j hj hlt => ?_⟩
    · exact get_le_get_argmaxIdx _ j hj _
    · exact get_lt_get_argmaxIdx_of_lt _ j hj _ hlt

theorem C5_sample_action_spec_witness :
    sample_action (S := ℕ) [(0, [1, 2])] [(0, [3, 1])] (1/2) 1 1 0 =
      some (argmaxIdx (addVec [1, 2] [3, 1])) ∧
    sample_action (S := ℕ) [(0, [1, 2])] [(0, [3, 1])] (1/2) (1/4) 1 0 =
      some 1 := by
  constructor
  · exact ((C5_sample_action_spec [(0, [1, 2])] [(0, [3, 1])] (1/2) 1 1 0
      [1, 2] [3, 1] (by with_unfolding_all decide) (by with_unfolding_all decide)).2
      (by with_unfolding_all decide)).1
  · exact (C5_sample_action_spec [(0, [1, 2])] [(0, [3, 1])] (1/2) (1/4) 1 0
      [1, 2] [3, 1] (by with_unfolding_all decide) (by with_unfolding_all decide)).1
      (by with_unfolding_all decide)

/-- C6: at episode start both tables' entries for the starting state are
assigned fresh zero vectors, overwriting any prior entry; in contrast, the
lazy mid-episode insertion (`setdefault`) leaves a present entry unchanged
and only inserts the zero default when the key is absent. -/
theorem C6_reset_overwrites_setdefault_preserves (Qa Qb t t2 : Table S)
    (s k k2 : S) (n : ℕ) (v v2 w : Vec)
    (hpresent : lookup t k = some w) (habsent : lookup t2 k2 = none) :
    lookup (episodeInit Qa Qb s n).1 s = some (zeros n) ∧
    lookup (episodeInit Qa Qb s n).2 s = some (zeros n) ∧
    setdefault t k v = (t, w) ∧
    setdefault t2 k2 v2 = (t2 ++ [(k2, v2)], v2) :=
  ⟨lookup_setKey_self Qa s (zeros n), lookup_setKey_self Qb s (zeros n),
    setdefault_of_mem t k v w hpresent, setdefault_of_not_mem t2 k2 v2 habsent⟩

theorem C6_reset_overwrites_setdefault_preserves_witness :
    lookup (episodeInit (S := ℕ) [(0, [7])] [] 0 1).1 0 = some (zeros 1) ∧
    lookup (episodeInit (S := ℕ) [(0, [7])] [] 0 1).2 0 = some (zeros 1) ∧
    setdefault (S := ℕ) [(0, [1])] 0 [9] = ([(0, [1])], [1]) ∧
    setdefault (S := ℕ) [] 0 [3] = ([(0, [3])], [3]) :=
  C6_reset_overwrites_setdefault_preserves [(0, [7])] [] [(0, [1])] []
    0 0 0 1 [9] [3] [1] (by with_unfolding_all decide) (by with_unfolding_all decide)

/-- C8: the training function and its instrumented variant are
deterministic — with all randomness supplied explicitly as the draw list, a
fixed draw list, environment, hyperparameters and initial tables determine
the per-step logs (action sequence and table contents after every step) and
the returned merged table and statistics. -/
theorem C8_deterministic (env1 env2 : Env S) (eps1 eps2 g1 g2 al1 al2 : ℚ)
    (n1 n2 : ℕ) (rs1 rs2 : List StepRand) (Qa1 Qa2 Qb1 Qb2 : Table S)
    (henv : env1 = env2) (heps : eps1 = eps2) (hg : g1 = g2) (hal : al1 = al2)
    (hn : n1 = n2) (hrs : rs1 = rs2) (hQa : Qa1 = Qa2) (hQb : Qb1 = Qb2) :
    runEpisodesR env1 eps1 g1 al1 n1 rs1 Qa1 Qb1 [] =
      runEpisodesR env2 eps2 g2 al2 n2 rs2 Qa2 Qb2 [] ∧
    double_q_learning env1 eps1 g1 al1 n1 rs1 Qa1 Qb1 =
      double_q_learning env2 eps2 g2 al2 n2 rs2 Qa2 Qb2 := by
  subst henv
  subst heps
  subst hg
  subst hal
  subst hn
  subst hrs
  subst hQa
  subst hQb
  exact ⟨rfl, rfl⟩

theorem C8_deterministic_witness :
    runEpisodesR miniEnv 0 1 (1/2) 1 [rW] [] [] [] =
      runEpisodesR miniEnv 0 1 (1/2) 1 [rW] [] [] [] ∧
    double_q_learning miniEnv 0 1 (1/2) 1 [rW] [] [] =
      double_q_learning miniEnv 0 1 (1/2) 1 [rW] [] [] :=
  C8_deterministic miniEnv miniEnv 0 0 1 1 (1/2) (1/2) 1 1 [rW] [rW]
    [] [] [] [] rfl rfl rfl rfl rfl rfl rfl rfl

/-- C9 counterexample: with a key present in `Q_a` but absent from `Q_b`
(possible when the caller pre-seeds mismatched tables), the merge step does
fail — `Q_b[key]` raises, modelled by `none` — refuting the claim that the
merge succeeds for every key of `Q_a`'s key set. -/
theorem C9_counterexample :
    (0 : ℕ) ∈ keys (S := ℕ) [(0, [0])] ∧
    mergeTables (S := ℕ) [(0, [0])] [] = none := by
  constructor
  · decide
  · rfl

/-- C9 amended: the merge step succeeds exactly when every state of `Q_a`'s
key set is also present in `Q_b`; under the training loop's
key-synchronization discipline this always holds, but a state present only
in `Q_a` makes the merge fail rather than succeed. -/
theorem C9_merge_succeeds_iff (Qa Qb : Table S) :
    (mergeTables Qa Qb).isSome = true ↔
      ∀ s ∈ keys Qa, (lookup Qb s).isSome = true :=
  mergeTables_isSome_iff Qa Qb

/-- C10: with `num_episodes = 0` the episode loop never runs, the
statistics list stays empty, and unpacking `zip(*stats)` fails, so the
training function errors out (returns `none`) instead of returning an empty
result. -/
theorem C10_zero_episodes_error (env : Env S) (eps g al : ℚ)
    (rs : List StepRand) (Qa Qb : Table S) :
    double_q_learning env eps g al 0 rs Qa Qb = none := rfl

end DoubleQ
